import Mathlib

/-!
# Verification of the shared id-service strategies

This development embeds the four synchronization strategies for a shared
monotonically increasing `uint64` counter (`noSyncIdService`,
`atomicIdService`, `mutexIdService`, `goroutineIdService`) together with the
test harness validator (`RunService`).

Concurrency is modelled by a schedule-driven small-step semantics: every
strategy is decomposed into the primitive memory / channel actions of its Go
source, a run state carries the service state plus the local state of each
worker, and an execution is the fold of the step function over an arbitrary
schedule (a list of worker / owner-thread identifiers).  Quantifying over all
schedules quantifies over all interleavings of the primitive actions.

`uint64` arithmetic is embedded as `Nat` with an explicit `% 2 ^ 64` at every
increment, exactly where the Go code performs wrapping machine arithmetic.

Each worker records the values returned to it newest-first, so a worker's
call-order return sequence is the reverse of its `rets` field.
-/

def U64 : Nat := 2 ^ 64

/-- The list `[k % U64, (k-1) % U64, ..., 2 % U64, 1 % U64]`: the returns of
`k` sequential calls, newest first. -/
def descList : Nat → List Nat
  | 0 => []
  | k + 1 => ((k + 1) % U64) :: descList k

/-! ## The unsynchronized strategy (`noSyncIdService`)

Go source:
```
func (i *noSyncIdService) getNext() uint64 {
    i.id++
    return i.id
}
```
`i.id++` is a non-atomic load followed by a store, and `return i.id` is a
second load.  A call therefore decomposes into three primitive actions:
load the counter, store the loaded value plus one, load the counter again and
return that value.  A worker's local state records where inside a call it is.
-/

structure noSyncIdService where
  id : Nat
deriving DecidableEq

/-- Position of a worker inside `noSyncIdService.getNext`:
`idle` = between calls, `loaded r` = has read `id` into a register,
`stored` = has written the incremented register back. -/
inductive NPhase
  | idle
  | loaded (r : Nat)
  | stored
deriving DecidableEq

structure NWorker where
  calls : Nat
  phase : NPhase
  rets : List Nat
deriving DecidableEq

structure NoSyncRun where
  svc : noSyncIdService
  workers : List NWorker
deriving DecidableEq

def nsInit (numWorkers : Nat) : NoSyncRun :=
  { svc := ⟨0⟩, workers := List.replicate numWorkers ⟨0, .idle, []⟩ }

def nsStep (numCalls : Nat) (s : NoSyncRun) (i : Nat) : NoSyncRun :=
  if h : i < s.workers.length then
    match s.workers[i].phase with
    | .idle =>
        if s.workers[i].calls < numCalls then
          { s with workers := s.workers.set i { s.workers[i] with phase := .loaded s.svc.id } }
        else s
    | .loaded r =>
        { svc := ⟨(r + 1) % U64⟩,
          workers := s.workers.set i { s.workers[i] with phase := .stored } }
    | .stored =>
        { s with workers := s.workers.set i ⟨s.workers[i].calls + 1, .idle,
            s.svc.id :: s.workers[i].rets⟩ }
  else s

def nsRun (numWorkers numCalls : Nat) (sched : List Nat) : NoSyncRun :=
  sched.foldl (nsStep numCalls) (nsInit numWorkers)

/-! ## The atomic strategy (`atomicIdService`)

Go source:
```
func (i *atomicIdService) getNext() uint64 {
    return atomic.AddUint64(&i.id, 1)
}
```
The fetch-and-add is indivisible, so a whole call is one primitive action that
wraps at `2 ^ 64` and returns the post-increment value.
-/

structure atomicIdService where
  id : Nat
deriving DecidableEq

structure AWorker where
  calls : Nat
  rets : List Nat
deriving DecidableEq

structure AtomicRun where
  svc : atomicIdService
  workers : List AWorker
deriving DecidableEq

def aInit (numWorkers : Nat) : AtomicRun :=
  { svc := ⟨0⟩, workers := List.replicate numWorkers ⟨0, []⟩ }

def aStep (numCalls : Nat) (s : AtomicRun) (i : Nat) : AtomicRun :=
  if h : i < s.workers.length then
    if s.workers[i].calls < numCalls then
      { svc := ⟨(s.svc.id + 1) % U64⟩,
        workers := s.workers.set i ⟨s.workers[i].calls + 1,
          ((s.svc.id + 1) % U64) :: s.workers[i].rets⟩ }
    else s
  else s

def aRun (numWorkers numCalls : Nat) (sched : List Nat) : AtomicRun :=
  sched.foldl (aStep numCalls) (aInit numWorkers)

/-- Total number of completed `getNext` calls in an atomic-strategy run. -/
def totalA (s : AtomicRun) : Nat := (s.workers.map (fun w => w.calls)).sum

/-- Multiset of all values returned so far in an atomic-strategy run. -/
def retsA (s : AtomicRun) : Multiset Nat :=
  (s.workers.map (fun w => (w.rets : Multiset Nat))).sum

/-- Reachability invariant of the atomic strategy, for `numWorkers` workers of
`numCalls` calls each with `numWorkers * numCalls < U64`: the counter equals
the number of completed calls, the returned values are exactly
`{1, ..., completed calls}`, and each worker's own returns (newest first)
are strictly decreasing and bounded by the number of completed calls. -/
def AInv (numWorkers numCalls : Nat) (s : AtomicRun) : Prop :=
  s.workers.length = numWorkers ∧
  s.svc.id = totalA s ∧
  retsA s = (Multiset.range (totalA s)).map (fun v => v + 1) ∧
  ∀ w ∈ s.workers, w.calls ≤ numCalls ∧ w.rets.Pairwise (fun a b => b < a) ∧
    ∀ v ∈ w.rets, v ≤ totalA s

/-! ## The exclusive-lock strategy (`mutexIdService`)

Go source:
```
func (i *mutexIdService) getNext() uint64 {
    i.Lock()
    defer i.Unlock()
    i.id += 1
    return i.id
}
```
A call decomposes into three primitive actions: acquire the mutex (blocking
while it is held), increment the shared counter, and read the counter for the
return value, which happens together with the deferred unlock when the
function returns.  The embedded `sync.Mutex` is the `locked` flag; a worker
scheduled while another holds the lock does nothing (it is waiting in
`Lock()`).
-/

structure mutexIdService where
  locked : Bool
  id : Nat
deriving DecidableEq

/-- Position of a worker inside `mutexIdService.getNext`: `outside` = not
holding the mutex, `acquired` = holds the mutex, increment still pending,
`incremented` = holds the mutex and has incremented, the returning read and
the deferred unlock still pending. -/
inductive MPhase
  | outside
  | acquired
  | incremented
deriving DecidableEq

structure MWorker where
  calls : Nat
  phase : MPhase
  rets : List Nat
deriving DecidableEq

structure MutexRun where
  svc : mutexIdService
  workers : List MWorker
deriving DecidableEq

def mInit (numWorkers : Nat) : MutexRun :=
  { svc := ⟨false, 0⟩, workers := List.replicate numWorkers ⟨0, .outside, []⟩ }

def mStep (numCalls : Nat) (s : MutexRun) (i : Nat) : MutexRun :=
  if h : i < s.workers.length then
    match s.workers[i].phase with
    | .outside =>
        if s.workers[i].calls < numCalls ∧ s.svc.locked = false then
          { svc := ⟨true, s.svc.id⟩,
            workers := s.workers.set i { s.workers[i] with phase := .acquired } }
        else s
    | .acquired =>
        { svc := ⟨true, (s.svc.id + 1) % U64⟩,
          workers := s.workers.set i { s.workers[i] with phase := .incremented } }
    | .incremented =>
        { svc := ⟨false, s.svc.id⟩,
          workers := s.workers.set i ⟨s.workers[i].calls + 1, .outside,
            s.svc.id :: s.workers[i].rets⟩ }
  else s

def mRun (numWorkers numCalls : Nat) (sched : List Nat) : MutexRun :=
  sched.foldl (mStep numCalls) (mInit numWorkers)

/-- Total number of completed `getNext` calls in a mutex-strategy run. -/
def totalM (s : MutexRun) : Nat := (s.workers.map (fun w => w.calls)).sum

/-- Multiset of all values returned so far in a mutex-strategy run. -/
def retsM (s : MutexRun) : Multiset Nat :=
  (s.workers.map (fun w => (w.rets : Multiset Nat))).sum

/-- Reachability invariant of the mutex strategy.  Either the mutex is free,
every worker is outside the critical section and the counter equals the number
of completed calls, or exactly one worker is inside: before its increment the
counter still equals the completed calls, after it the counter is one above. -/
def MInv (numWorkers numCalls : Nat) (s : MutexRun) : Prop :=
  s.workers.length = numWorkers ∧
  retsM s = (Multiset.range (totalM s)).map (fun v => v + 1) ∧
  (∀ w ∈ s.workers, w.calls ≤ numCalls ∧ w.rets.Pairwise (fun a b => b < a) ∧
    ∀ v ∈ w.rets, v ≤ totalM s) ∧
  ((s.svc.locked = false ∧ s.svc.id = totalM s ∧
      ∀ j, ∀ hj : j < s.workers.length, s.workers[j].phase = .outside) ∨
   (∃ i, ∃ h : i < s.workers.length, s.svc.locked = true ∧
      (∀ j, ∀ hj : j < s.workers.length, j ≠ i → s.workers[j].phase = .outside) ∧
      s.workers[i].calls < numCalls ∧
      ((s.workers[i].phase = .acquired ∧ s.svc.id = totalM s) ∨
       (s.workers[i].phase = .incremented ∧ s.svc.id = totalM s + 1))))

/-- Schedule of `j` complete sequential mutex calls by worker `0`
(acquire, increment, read-and-release for each call). -/
def mSeqSched : Nat → List Nat
  | 0 => []
  | j + 1 => mSeqSched j ++ [0, 0, 0]

/-! ## The single-owner-thread strategy (`goroutineIdService`)

Go source:
```
func MakeGoroutineIdService() *goroutineIdService {
    service := goroutineIdService{
        requests:  make(chan struct{}),
        responses: make(chan uint64),
    }
    service.Start()
    return &service
}

func (s *goroutineIdService) Start() {
    go func() {
        id := uint64(0)
        for range s.requests {
            id++
            s.responses <- id
        }
    }()
}

func (s *goroutineIdService) Stop() {
    close(s.requests)
}

func (s *goroutineIdService) getNext() uint64 {
    s.requests <- struct{}{}
    return <-s.responses
}
```
The embedding keeps the list of owner goroutines spawned by `Start` (each
with its own private `id`, starting in the receive loop), a `closed` flag for
`close(s.requests)`, and a `panicked` flag for the Go run-time panics (send
on a closed channel in `getNext`, close of a closed channel in `Stop`).
Both channels are unbuffered, so a send completes only together with a
matching receive; a `getNext` call is therefore two primitive actions for the
caller — the request handshake (worker goes from `idle` to `waiting`, the
matched owner from `listening` to `incrementing`) and the response handshake
(a `responding` owner hands its private counter value to a `waiting` worker
and returns to `listening`) — plus the owner's private increment action in
between.  A worker or owner whose channel partner is not ready does nothing
when scheduled (it is blocked in the channel operation).
-/

inductive OPhase
  | listening
  | incrementing
  | responding
  | stopped
deriving DecidableEq

structure GOwner where
  ophase : OPhase
  id : Nat
deriving DecidableEq

structure goroutineIdService where
  owners : List GOwner
  closed : Bool
  panicked : Bool
deriving DecidableEq

/-- `Start` spawns one more owner goroutine with a fresh private counter,
entering its receive loop.  The Go code has no guard: every call spawns. -/
def Start (s : goroutineIdService) : goroutineIdService :=
  { s with owners := s.owners ++ [⟨.listening, 0⟩] }

/-- `MakeGoroutineIdService` builds the channel pair and calls `Start` once. -/
def MakeGoroutineIdService : goroutineIdService :=
  Start ⟨[], false, false⟩

/-- `Stop` is `close(s.requests)`; closing an already-closed channel is a Go
run-time panic. -/
def Stop (s : goroutineIdService) : goroutineIdService :=
  if s.closed then { s with panicked := true } else { s with closed := true }

inductive GWPhase
  | idle
  | waiting
deriving DecidableEq

structure GWorker where
  calls : Nat
  phase : GWPhase
  rets : List Nat
deriving DecidableEq

structure GRun where
  svc : goroutineIdService
  workers : List GWorker
deriving DecidableEq

def isListening (o : GOwner) : Bool :=
  match o.ophase with
  | .listening => true
  | _ => false

def isResponding (o : GOwner) : Bool :=
  match o.ophase with
  | .responding => true
  | _ => false

/-- Index of the first owner satisfying `p` (the Go runtime may pick any
ready channel partner; picking the first is one legal choice). -/
def firstIdx (p : GOwner → Bool) : List GOwner → Option Nat
  | [] => none
  | o :: os => if p o then some 0 else (firstIdx p os).map (fun j => j + 1)

/-- A schedule entry: run one primitive action of worker `i` or of owner
goroutine `j`. -/
inductive GSched
  | worker (i : Nat)
  | owner (j : Nat)
deriving DecidableEq

def gStep (numCalls : Nat) (s : GRun) (a : GSched) : GRun :=
  if s.svc.panicked then s else
  match a with
  | .worker i =>
    if h : i < s.workers.length then
      match s.workers[i].phase with
      | .idle =>
        if s.workers[i].calls < numCalls then
          if s.svc.closed then
            { s with svc := { s.svc with panicked := true } }
          else
            match firstIdx isListening s.svc.owners with
            | some j =>
              if hj : j < s.svc.owners.length then
                { svc := { s.svc with
                    owners := s.svc.owners.set j ({ s.svc.owners[j] with ophase := .incrementing }) },
                  workers := s.workers.set i { s.workers[i] with phase := .waiting } }
              else s
            | none => s
        else s
      | .waiting =>
        match firstIdx isResponding s.svc.owners with
        | some j =>
          if hj : j < s.svc.owners.length then
            { svc := { s.svc with
                owners := s.svc.owners.set j ({ s.svc.owners[j] with ophase := .listening }) },
              workers := s.workers.set i ⟨s.workers[i].calls + 1, .idle,
                s.svc.owners[j].id :: s.workers[i].rets⟩ }
          else s
        | none => s
    else s
  | .owner j =>
    if hj : j < s.svc.owners.length then
      match s.svc.owners[j].ophase with
      | .listening =>
        if s.svc.closed then
          { s with svc := { s.svc with
              owners := s.svc.owners.set j ({ s.svc.owners[j] with ophase := .stopped }) } }
        else s
      | .incrementing =>
        { s with svc := { s.svc with
            owners := s.svc.owners.set j ⟨.responding, (s.svc.owners[j].id + 1) % U64⟩ } }
      | .responding => s
      | .stopped => s
    else s

def gInit (numWorkers : Nat) : GRun :=
  { svc := MakeGoroutineIdService,
    workers := List.replicate numWorkers ⟨0, .idle, []⟩ }

def gRun (numWorkers numCalls : Nat) (sched : List GSched) : GRun :=
  sched.foldl (gStep numCalls) (gInit numWorkers)

/-- Total number of completed `getNext` calls in an owner-thread run. -/
def totalG (s : GRun) : Nat := (s.workers.map (fun w => w.calls)).sum

/-- Multiset of all values returned so far in an owner-thread run. -/
def retsG (s : GRun) : Multiset Nat :=
  (s.workers.map (fun w => (w.rets : Multiset Nat))).sum

/-- Reachability invariant of the owner-thread strategy as constructed by
`MakeGoroutineIdService` and driven only by `getNext` and owner actions (no
`Stop`): nothing has panicked, the request channel is open, there is exactly
one owner goroutine, and at any moment either the owner is listening, every
worker is between calls and the owner's private counter equals the number of
completed calls, or exactly one worker is blocked in the channel handshake:
before the owner's increment the private counter equals the completed calls,
after it the counter is one above, and that value is what the blocked worker
will receive. -/
def GInv (numWorkers numCalls : Nat) (s : GRun) : Prop :=
  s.svc.panicked = false ∧
  s.svc.closed = false ∧
  s.workers.length = numWorkers ∧
  retsG s = (Multiset.range (totalG s)).map (fun v => v + 1) ∧
  (∀ w ∈ s.workers, w.calls ≤ numCalls ∧ w.rets.Pairwise (fun a b => b < a) ∧
    ∀ v ∈ w.rets, v ≤ totalG s) ∧
  ∃ o : GOwner, s.svc.owners = [o] ∧
    ((o.ophase = .listening ∧ o.id = totalG s ∧
        ∀ j, ∀ hj : j < s.workers.length, s.workers[j].phase = .idle) ∨
     (∃ i, ∃ h : i < s.workers.length,
        (∀ j, ∀ hj : j < s.workers.length, j ≠ i → s.workers[j].phase = .idle) ∧
        s.workers[i].phase = .waiting ∧ s.workers[i].calls < numCalls ∧
        ((o.ophase = .incrementing ∧ o.id = totalG s) ∨
         (o.ophase = .responding ∧ o.id = totalG s + 1))))

/-- Schedule of `j` complete sequential noSync calls by worker `0`
(load, store, reload-and-return for each call). -/
def nsSeqSched : Nat → List Nat
  | 0 => []
  | j + 1 => nsSeqSched j ++ [0, 0, 0]

/-- Schedule of `j` complete sequential owner-thread calls by worker `0`
(request handshake, owner increment, response handshake for each call). -/
def gSeqSched : Nat → List GSched
  | 0 => []
  | j + 1 => gSeqSched j ++ [.worker 0, .owner 0, .worker 0]

/-! ## The test-harness validator (`RunService`)

Go source (the per-worker goroutine body and the final check):
```
lastId := uint64(0)
for j := 0; j < numCalls; j++ {
    id := service.getNext()
    if id < lastId {
        return fmt.Errorf("Ids not monotonically increasing: got %d after %d", id, lastId)
    }
    idChan <- id
}
...
expectedMax := numWorkers * numCalls
maxId := uint64(0)
for id := range idChan {
    if maxId < id {
        maxId = id
    }
}
if maxId != uint64(expectedMax) {
    t.Fatalf(...)
}
```
Note that the Go loop never assigns `lastId` after its initialization to `0`;
the embedding reproduces this faithfully by threading `lastId` unchanged.
`RunService` takes the per-worker observed sequences (in call order) and
returns `true` when the run is failed. -/

def workerCheckErr : Nat → List Nat → Bool
  | _, [] => false
  | lastId, id :: rest => if id < lastId then true else workerCheckErr lastId rest

def maxId (ids : List Nat) : Nat :=
  ids.foldl (fun m i => if m < i then i else m) 0

def RunService (results : List (List Nat)) (numWorkers numCalls : Nat) : Bool :=
  (results.any fun rets => workerCheckErr 0 rets) ||
    !(maxId results.flatten == numWorkers * numCalls)

/-! ## Theorems -/

theorem descList_eq_of_lt : ∀ k : Nat, k < U64 →
    descList k = ((List.range k).map (fun j => j + 1)).reverse
  | 0, _ => rfl
  | k + 1, h => by
      rw [descList, List.range_succ, List.map_append, List.reverse_append,
        descList_eq_of_lt k (Nat.lt_of_succ_lt h), Nat.mod_eq_of_lt h]
      rfl

theorem u64_pred_succ : U64 - 1 + 1 = U64 := by
  have : 0 < U64 := by decide
  omega

theorem descList_u64 : descList U64 = 0 :: (U64 - 1) :: descList (U64 - 2) := by
  have h2 : U64 - 2 + 1 = U64 - 1 := by
    have : 2 ≤ U64 := by decide
    omega
  conv_lhs => rw [← u64_pred_succ]
  rw [descList, u64_pred_succ, Nat.mod_self]
  conv_lhs => rw [← h2]
  rw [descList, h2]
  have : U64 - 1 < U64 := by
    have : 0 < U64 := by decide
    omega
  rw [Nat.mod_eq_of_lt this]

theorem zero_mem_descList_u64 : 0 ∈ descList U64 := by
  rw [descList_u64]; exact List.mem_cons_self _ _

/-! ## Generic list helpers for the run states -/

theorem sum_map_set {α β : Type} [AddCommMonoid β] (f : α → β) :
    ∀ (ls : List α) (i : Nat) (a : α) (h : i < ls.length),
      ((ls.set i a).map f).sum + f ls[i] = (ls.map f).sum + f a
  | x :: xs, 0, a, _ => by
      simp only [List.set, List.map, List.sum_cons, List.getElem_cons_zero]
      abel
  | x :: xs, i + 1, a, h => by
      simp only [List.set, List.map, List.sum_cons, List.getElem_cons_succ]
      have ih := sum_map_set f xs i a (by simpa using Nat.lt_of_succ_lt_succ h)
      rw [add_assoc, ih, ← add_assoc]

theorem mem_of_mem_set {α : Type} :
    ∀ (ls : List α) (i : Nat) (a w : α), w ∈ ls.set i a → w ∈ ls ∨ w = a
  | [], _, _, _, hw => by simp at hw
  | x :: xs, 0, a, w, hw => by
      simp only [List.set, List.mem_cons] at hw
      rcases hw with h | h
      · exact Or.inr h
      · exact Or.inl (List.mem_cons_of_mem _ h)
  | x :: xs, i + 1, a, w, hw => by
      simp only [List.set, List.mem_cons] at hw
      rcases hw with h | h
      · exact Or.inl (h ▸ List.mem_cons_self _ _)
      · rcases mem_of_mem_set xs i a w h with h' | h'
        · exact Or.inl (List.mem_cons_of_mem _ h')
        · exact Or.inr h'

theorem sum_map_le {α : Type} (f : α → Nat) (M : Nat) :
    ∀ ls : List α, (∀ w ∈ ls, f w ≤ M) → (ls.map f).sum ≤ ls.length * M
  | [], _ => by simp
  | x :: xs, h => by
      simp only [List.map, List.sum_cons, List.length_cons]
      have hx := h x (List.mem_cons_self _ _)
      have ih := sum_map_le f M xs (fun w hw => h w (List.mem_cons_of_mem _ hw))
      have : (xs.length + 1) * M = xs.length * M + M := by ring
      omega

theorem sum_map_lt {α : Type} (f : α → Nat) (M : Nat) :
    ∀ (ls : List α) (i : Nat) (h : i < ls.length),
      (∀ w ∈ ls, f w ≤ M) → f ls[i] < M → (ls.map f).sum < ls.length * M
  | x :: xs, 0, _, hall, hlt => by
      simp only [List.getElem_cons_zero] at hlt
      simp only [List.map, List.sum_cons, List.length_cons]
      have ih := sum_map_le f M xs (fun w hw => hall w (List.mem_cons_of_mem _ hw))
      have : (xs.length + 1) * M = xs.length * M + M := by ring
      omega
  | x :: xs, i + 1, h, hall, hlt => by
      simp only [List.getElem_cons_succ] at hlt
      simp only [List.map, List.sum_cons, List.length_cons]
      have hx := hall x (List.mem_cons_self _ _)
      have ih := sum_map_lt f M xs i (by simpa using Nat.lt_of_succ_lt_succ h)
        (fun w hw => hall w (List.mem_cons_of_mem _ hw)) hlt
      have : (xs.length + 1) * M = xs.length * M + M := by ring
      omega

theorem sum_map_eq_of_all {α : Type} (f : α → Nat) (M : Nat) :
    ∀ ls : List α, (∀ w ∈ ls, f w = M) → (ls.map f).sum = ls.length * M
  | [], _ => by simp
  | x :: xs, h => by
      simp only [List.map, List.sum_cons, List.length_cons]
      have hx := h x (List.mem_cons_self _ _)
      have ih := sum_map_eq_of_all f M xs (fun w hw => h w (List.mem_cons_of_mem _ hw))
      have : (xs.length + 1) * M = xs.length * M + M := by ring
      omega

/-- Setting slot `i` to an element whose extracted list gains `v` on top turns
the combined multiset of extracted lists into `v ::ₘ (old combined multiset)`. -/
theorem sum_coe_set {α : Type} (g : α → List Nat) (ls : List α) (i : Nat) (a : α)
    (h : i < ls.length) (v : Nat) (hg : g a = v :: g ls[i]) :
    ((ls.set i a).map (fun w => (g w : Multiset Nat))).sum =
      v ::ₘ (ls.map (fun w => (g w : Multiset Nat))).sum := by
  have hs := sum_map_set (fun w => (g w : Multiset Nat)) ls i a h
  rw [hg, ← Multiset.cons_coe, ← Multiset.singleton_add, ← add_assoc] at hs
  have := add_right_cancel hs
  rw [this, add_comm, Multiset.singleton_add]

/-- C2: for the unsynchronized strategy there is a concurrent execution of two
workers, one `getNext` call each, in which both workers load the same
pre-increment value `0`, both store `1`, and both calls return `1`: the
returned values contain a duplicate and the maximum returned value `1` is
strictly below the total call count `2`.  The exhibited schedule interleaves
the two load actions before either store. -/
theorem c2_nosync_race_duplicates :
    (nsRun 2 1 [0, 1, 0, 1, 0, 1]).workers.map (fun w => w.rets) = [[1], [1]] ∧
    (nsRun 2 1 [0, 1, 0, 1, 0, 1]).workers.map (fun w => w.calls) = [1, 1] ∧
    (1 : Nat) < 2 * 1 := by
  refine ⟨?_, ?_, ?_⟩ <;> decide

theorem aInit_inv (numWorkers numCalls : Nat) : AInv numWorkers numCalls (aInit numWorkers) := by
  refine ⟨by simp [aInit], ?_, ?_, ?_⟩
  · simp [aInit, totalA, List.map_replicate]
  · simp [aInit, retsA, totalA, List.map_replicate]
  · intro w hw
    rw [aInit, List.mem_replicate] at hw
    simp [hw.2]

theorem aStep_inv (numWorkers numCalls : Nat) (hNM : numWorkers * numCalls < U64)
    (s : AtomicRun) (hs : AInv numWorkers numCalls s) (i : Nat) :
    AInv numWorkers numCalls (aStep numCalls s i) := by
  obtain ⟨hlen, hid, hrets, hw⟩ := hs
  unfold aStep
  split
  case isFalse => exact ⟨hlen, hid, hrets, hw⟩
  case isTrue h =>
    split
    case isFalse => exact ⟨hlen, hid, hrets, hw⟩
    case isTrue hcalls =>
      have hmem : s.workers[i] ∈ s.workers := List.getElem_mem h
      -- the updated worker
      set w' : AWorker := ⟨s.workers[i].calls + 1, ((s.svc.id + 1) % U64) :: s.workers[i].rets⟩
        with hw'
      have hlen' : (s.workers.set i w').length = numWorkers := by
        rw [List.length_set]; exact hlen
      -- total goes up by one
      have htot := sum_map_set (fun w => w.calls) s.workers i w' h
      have htot' : ((s.workers.set i w').map (fun w => w.calls)).sum = totalA s + 1 := by
        dsimp only at htot
        simp only [totalA]
        omega
      -- the new total is bounded by numWorkers * numCalls, so no wrap occurs
      have hbound : totalA s + 1 ≤ numWorkers * numCalls := by
        have := sum_map_le (fun w => w.calls) numCalls (s.workers.set i w')
          (by
            intro w hmem'
            rcases mem_of_mem_set _ _ _ _ hmem' with h' | h'
            · exact (hw w h').1
            · rw [h', hw']; exact hcalls)
        rw [htot', hlen'] at this
        exact this
      have hnowrap : (s.svc.id + 1) % U64 = totalA s + 1 := by
        rw [hid, Nat.mod_eq_of_lt (lt_of_le_of_lt hbound hNM)]
      refine ⟨hlen', ?_, ?_, ?_⟩
      · show (s.svc.id + 1) % U64 = totalA _
        rw [hnowrap]
        show totalA s + 1 = ((s.workers.set i w').map (fun w => w.calls)).sum
        rw [htot']
      · show ((s.workers.set i w').map (fun w => (w.rets : Multiset Nat))).sum = _
        have hcons := sum_coe_set (fun w => w.rets) s.workers i w' h ((s.svc.id + 1) % U64)
          (by rw [hw'])
        rw [hcons]
        show _ = (Multiset.range (totalA _)).map (fun v => v + 1)
        have : totalA (⟨⟨(s.svc.id + 1) % U64⟩, s.workers.set i w'⟩ : AtomicRun) =
            totalA s + 1 := htot'
        rw [this, hnowrap]
        rw [Multiset.range_succ, Multiset.map_cons]
        show ((totalA s + 1) ::ₘ retsA s) = _
        rw [hrets]
      · intro w hmem'
        have htotnew : totalA (⟨⟨(s.svc.id + 1) % U64⟩, s.workers.set i w'⟩ : AtomicRun) =
            totalA s + 1 := htot'
        rcases mem_of_mem_set _ _ _ _ hmem' with h' | h'
        · obtain ⟨hc, hp, hb⟩ := hw w h'
          exact ⟨hc, hp, fun v hv => by rw [htotnew]; exact Nat.le_succ_of_le (hb v hv)⟩
        · obtain ⟨hc, hp, hb⟩ := hw s.workers[i] hmem
          subst h'
          rw [hw']
          refine ⟨hcalls, ?_, ?_⟩
          · rw [List.pairwise_cons]
            refine ⟨fun b hb' => ?_, hp⟩
            rw [hnowrap]
            exact Nat.lt_succ_of_le (hb b hb')
          · intro v hv
            rw [htotnew]
            rcases List.mem_cons.mp hv with h'' | h''
            · rw [h'', hnowrap]
            · exact Nat.le_succ_of_le (hb v h'')

theorem aRun_inv (numWorkers numCalls : Nat) (hNM : numWorkers * numCalls < U64) :
    ∀ (sched : List Nat) (s : AtomicRun), AInv numWorkers numCalls s →
      AInv numWorkers numCalls (sched.foldl (aStep numCalls) s)
  | [], _, hs => hs
  | a :: rest, s, hs =>
      aRun_inv numWorkers numCalls hNM rest _ (aStep_inv numWorkers numCalls hNM s hs a)

/-- Sequential (single-worker) execution of the atomic strategy: after `j`
back-to-back calls the counter holds `j % U64` and the returns, newest first,
are `descList j`. -/
theorem aSeq : ∀ (M j : Nat), j ≤ M →
    aRun 1 M (List.replicate j 0) = ⟨⟨j % U64⟩, [⟨j, descList j⟩]⟩
  | M, 0, _ => by simp [aRun, aInit, List.replicate, descList]
  | M, j + 1, h => by
      rw [aRun, List.replicate_succ', List.foldl_append]
      have ih := aSeq M j (Nat.le_of_succ_le h)
      rw [aRun] at ih
      rw [ih]
      simp [aStep, descList, Nat.mod_add_mod, Nat.lt_of_succ_le h]

theorem mInit_inv (numWorkers numCalls : Nat) : MInv numWorkers numCalls (mInit numWorkers) := by
  refine ⟨by simp [mInit], ?_, ?_, ?_⟩
  · simp [mInit, retsM, totalM, List.map_replicate]
  · intro w hw
    rw [mInit, List.mem_replicate] at hw
    simp [hw.2]
  · refine Or.inl ⟨rfl, ?_, ?_⟩
    · simp [mInit, totalM, List.map_replicate]
    · intro j hj
      simp [mInit, List.getElem_replicate]

theorem sum_map_set_same {α β : Type} [AddCancelCommMonoid β] (f : α → β) (ls : List α)
    (i : Nat) (a : α) (h : i < ls.length) (hf : f a = f ls[i]) :
    ((ls.set i a).map f).sum = (ls.map f).sum := by
  have hs := sum_map_set f ls i a h
  rw [hf] at hs
  exact add_right_cancel hs

theorem totalM_set_same (s : MutexRun) (svc' : mutexIdService) (k : Nat) (a : MWorker)
    (h : k < s.workers.length) (hf : a.calls = s.workers[k].calls) :
    totalM ⟨svc', s.workers.set k a⟩ = totalM s := by
  show ((s.workers.set k a).map (fun w => w.calls)).sum =
    (s.workers.map (fun w => w.calls)).sum
  exact sum_map_set_same (fun w => w.calls) s.workers k a h hf

theorem totalM_set_succ (s : MutexRun) (svc' : mutexIdService) (k : Nat) (a : MWorker)
    (h : k < s.workers.length) (hf : a.calls = s.workers[k].calls + 1) :
    totalM ⟨svc', s.workers.set k a⟩ = totalM s + 1 := by
  have hs := sum_map_set (fun w => w.calls) s.workers k a h
  rw [hf] at hs
  show ((s.workers.set k a).map (fun w => w.calls)).sum =
    (s.workers.map (fun w => w.calls)).sum + 1
  omega

theorem retsM_set_same (s : MutexRun) (svc' : mutexIdService) (k : Nat) (a : MWorker)
    (h : k < s.workers.length) (hf : a.rets = s.workers[k].rets) :
    retsM ⟨svc', s.workers.set k a⟩ = retsM s := by
  show ((s.workers.set k a).map (fun w => (w.rets : Multiset Nat))).sum =
    (s.workers.map (fun w => (w.rets : Multiset Nat))).sum
  exact sum_map_set_same (fun w => (w.rets : Multiset Nat)) s.workers k a h
    (by show ((a.rets : List Nat) : Multiset Nat) = _; rw [hf])

theorem retsM_set_cons (s : MutexRun) (svc' : mutexIdService) (k : Nat) (a : MWorker)
    (h : k < s.workers.length) (v : Nat) (hf : a.rets = v :: s.workers[k].rets) :
    retsM ⟨svc', s.workers.set k a⟩ = v ::ₘ retsM s := by
  show ((s.workers.set k a).map (fun w => (w.rets : Multiset Nat))).sum =
    v ::ₘ (s.workers.map (fun w => (w.rets : Multiset Nat))).sum
  exact sum_coe_set (fun w => w.rets) s.workers k a h v hf

theorem mStep_inv (numWorkers numCalls : Nat) (hNM : numWorkers * numCalls < U64)
    (s : MutexRun) (hs : MInv numWorkers numCalls s) (k : Nat) :
    MInv numWorkers numCalls (mStep numCalls s k) := by
  obtain ⟨hlen, hrets, hwall, hlock⟩ := hs
  unfold mStep
  split
  case isFalse => exact ⟨hlen, hrets, hwall, hlock⟩
  case isTrue h =>
    split
    next heq =>
      -- the scheduled worker is outside the critical section
      split
      case isFalse => exact ⟨hlen, hrets, hwall, hlock⟩
      case isTrue hc =>
        obtain ⟨hcM, hfree⟩ := hc
        rcases hlock with ⟨_, hid, hout⟩ | ⟨i, hi, hlkd, _, _, _⟩
        · -- the mutex is free: the worker acquires it
          have htot := totalM_set_same s ⟨true, s.svc.id⟩ k
            ({ s.workers[k] with phase := .acquired }) h rfl
          have hret := retsM_set_same s ⟨true, s.svc.id⟩ k
            ({ s.workers[k] with phase := .acquired }) h rfl
          refine ⟨?_, ?_, ?_, ?_⟩
          · simp only [List.length_set]
            exact hlen
          · rw [hret, htot]; exact hrets
          · intro w hw
            rcases mem_of_mem_set _ _ _ _ hw with h' | h'
            · obtain ⟨hc', hp', hb'⟩ := hwall w h'
              exact ⟨hc', hp', fun v hv => by rw [htot]; exact hb' v hv⟩
            · obtain ⟨hc', hp', hb'⟩ := hwall s.workers[k] (List.getElem_mem h)
              subst h'
              exact ⟨hc', hp', fun v hv => by rw [htot]; exact hb' v hv⟩
          · refine Or.inr ⟨k, ?_, rfl, ?_, ?_, Or.inl ⟨?_, ?_⟩⟩
            · simp only [List.length_set]
              exact h
            · intro j hj hne
              have hj0 : j < s.workers.length := by
                simp only [List.length_set] at hj; exact hj
              simp only [List.getElem_set_ne (Ne.symm hne)]
              exact hout j hj0
            · simp only [List.getElem_set_self]
              exact hcM
            · simp [List.getElem_set_self]
            · rw [htot]
              exact hid
        · rw [hlkd] at hfree
          exact Bool.noConfusion hfree
    next heq =>
      -- the scheduled worker holds the mutex, increment pending
      rcases hlock with ⟨_, _, hout⟩ | ⟨i, hi, hlkd, hoth, hciM, hsub⟩
      · have := hout k h
        rw [heq] at this
        exact absurd this (by decide)
      · by_cases hk : k = i
        · subst hk
          rcases hsub with ⟨_, hida⟩ | ⟨hpi, _⟩
          · have hlt2 : totalM s < numWorkers * numCalls := by
              have hx := sum_map_lt (fun w => w.calls) numCalls s.workers k h
                (fun w hw => (hwall w hw).1) hciM
              rw [hlen] at hx
              exact hx
            have hmod : (s.svc.id + 1) % U64 = totalM s + 1 := by
              rw [hida]; exact Nat.mod_eq_of_lt (by omega)
            have htot := totalM_set_same s ⟨true, (s.svc.id + 1) % U64⟩ k
              ({ s.workers[k] with phase := .incremented }) h rfl
            have hret := retsM_set_same s ⟨true, (s.svc.id + 1) % U64⟩ k
              ({ s.workers[k] with phase := .incremented }) h rfl
            refine ⟨?_, ?_, ?_, ?_⟩
            · simp only [List.length_set]
              exact hlen
            · rw [hret, htot]; exact hrets
            · intro w hw
              rcases mem_of_mem_set _ _ _ _ hw with h' | h'
              · obtain ⟨hc', hp', hb'⟩ := hwall w h'
                exact ⟨hc', hp', fun v hv => by rw [htot]; exact hb' v hv⟩
              · obtain ⟨hc', hp', hb'⟩ := hwall s.workers[k] (List.getElem_mem h)
                subst h'
                exact ⟨hc', hp', fun v hv => by rw [htot]; exact hb' v hv⟩
            · refine Or.inr ⟨k, ?_, rfl, ?_, ?_, Or.inr ⟨?_, ?_⟩⟩
              · simp only [List.length_set]
                exact h
              · intro j hj hne
                have hj0 : j < s.workers.length := by
                  simp only [List.length_set] at hj; exact hj
                simp only [List.getElem_set_ne (Ne.symm hne)]
                exact hoth j hj0 hne
              · simp only [List.getElem_set_self]
                exact hciM
              · simp [List.getElem_set_self]
              · rw [htot]
                show (s.svc.id + 1) % U64 = totalM s + 1
                exact hmod
          · rw [heq] at hpi
            exact absurd hpi (by decide)
        · have := hoth k h hk
          rw [heq] at this
          exact absurd this (by decide)
    next heq =>
      -- the scheduled worker has incremented: read, record, unlock
      rcases hlock with ⟨_, _, hout⟩ | ⟨i, hi, hlkd, hoth, hciM, hsub⟩
      · have := hout k h
        rw [heq] at this
        exact absurd this (by decide)
      · by_cases hk : k = i
        · subst hk
          rcases hsub with ⟨hpa, _⟩ | ⟨_, hidi⟩
          · rw [heq] at hpa
            exact absurd hpa (by decide)
          · have htot := totalM_set_succ s ⟨false, s.svc.id⟩ k
              (⟨s.workers[k].calls + 1, .outside, s.svc.id :: s.workers[k].rets⟩) h rfl
            have hret := retsM_set_cons s ⟨false, s.svc.id⟩ k
              (⟨s.workers[k].calls + 1, .outside, s.svc.id :: s.workers[k].rets⟩) h
              s.svc.id rfl
            refine ⟨?_, ?_, ?_, ?_⟩
            · simp only [List.length_set]
              exact hlen
            · rw [hret, htot, hidi, hrets, Multiset.range_succ, Multiset.map_cons]
            · intro w hw
              rcases mem_of_mem_set _ _ _ _ hw with h' | h'
              · obtain ⟨hc', hp', hb'⟩ := hwall w h'
                exact ⟨hc', hp', fun v hv => by
                  rw [htot]; exact Nat.le_succ_of_le (hb' v hv)⟩
              · obtain ⟨hc', hp', hb'⟩ := hwall s.workers[k] (List.getElem_mem h)
                subst h'
                refine ⟨hciM, ?_, ?_⟩
                · rw [List.pairwise_cons]
                  refine ⟨fun b hb2 => ?_, hp'⟩
                  rw [hidi]
                  exact Nat.lt_succ_of_le (hb' b hb2)
                · intro v hv
                  rw [htot]
                  rcases List.mem_cons.mp hv with h'' | h''
                  · rw [h'', hidi]
                  · exact Nat.le_succ_of_le (hb' v h'')
            · refine Or.inl ⟨rfl, ?_, ?_⟩
              · rw [htot]
                show s.svc.id = totalM s + 1
                exact hidi
              · intro j hj
                have hj0 : j < s.workers.length := by
                  simp only [List.length_set] at hj; exact hj
                by_cases hjk : j = k
                · subst hjk
                  simp [List.getElem_set_self]
                · simp only [List.getElem_set_ne (Ne.symm hjk)]
                  exact hoth j hj0 hjk
        · have := hoth k h hk
          rw [heq] at this
          exact absurd this (by decide)

theorem mRun_inv (numWorkers numCalls : Nat) (hNM : numWorkers * numCalls < U64) :
    ∀ (sched : List Nat) (x : MutexRun), MInv numWorkers numCalls x →
      MInv numWorkers numCalls (sched.foldl (mStep numCalls) x)
  | [], _, hs => hs
  | a :: rest, x, hs =>
      mRun_inv numWorkers numCalls hNM rest _ (mStep_inv numWorkers numCalls hNM x hs a)

/-- Sequential (single-worker) execution of the mutex strategy. -/
theorem mSeq : ∀ (M j : Nat), j ≤ M →
    mRun 1 M (mSeqSched j) = ⟨⟨false, j % U64⟩, [⟨j, .outside, descList j⟩]⟩
  | M, 0, _ => by simp [mRun, mSeqSched, mInit, List.replicate, descList]
  | M, j + 1, h => by
      rw [mRun, mSeqSched, List.foldl_append]
      have ih := mSeq M j (Nat.le_of_succ_le h)
      rw [mRun] at ih
      rw [ih]
      simp [mStep, descList, Nat.mod_add_mod, Nat.lt_of_succ_le h]

theorem gInit_inv (numWorkers numCalls : Nat) : GInv numWorkers numCalls (gInit numWorkers) := by
  refine ⟨rfl, rfl, by simp [gInit], ?_, ?_, ?_⟩
  · simp [gInit, retsG, totalG, List.map_replicate]
  · intro w hw
    rw [gInit, List.mem_replicate] at hw
    simp [hw.2]
  · refine ⟨⟨.listening, 0⟩, rfl, Or.inl ⟨rfl, ?_, ?_⟩⟩
    · simp [gInit, totalG, List.map_replicate]
    · intro j hj
      simp [gInit, List.getElem_replicate]

theorem isListening_iff (o : GOwner) : isListening o = true ↔ o.ophase = .listening := by
  cases h : o.ophase <;> simp [isListening, h]

theorem isResponding_iff (o : GOwner) : isResponding o = true ↔ o.ophase = .responding := by
  cases h : o.ophase <;> simp [isResponding, h]

theorem firstIdx_singleton (p : GOwner → Bool) (o : GOwner) :
    firstIdx p [o] = if p o then some 0 else none := by
  simp [firstIdx]

theorem totalG_set_same (s : GRun) (svc' : goroutineIdService) (k : Nat) (a : GWorker)
    (h : k < s.workers.length) (hf : a.calls = s.workers[k].calls) :
    totalG ⟨svc', s.workers.set k a⟩ = totalG s := by
  show ((s.workers.set k a).map (fun w => w.calls)).sum =
    (s.workers.map (fun w => w.calls)).sum
  exact sum_map_set_same (fun w => w.calls) s.workers k a h hf

theorem totalG_set_succ (s : GRun) (svc' : goroutineIdService) (k : Nat) (a : GWorker)
    (h : k < s.workers.length) (hf : a.calls = s.workers[k].calls + 1) :
    totalG ⟨svc', s.workers.set k a⟩ = totalG s + 1 := by
  have hs := sum_map_set (fun w => w.calls) s.workers k a h
  rw [hf] at hs
  show ((s.workers.set k a).map (fun w => w.calls)).sum =
    (s.workers.map (fun w => w.calls)).sum + 1
  omega

theorem retsG_set_same (s : GRun) (svc' : goroutineIdService) (k : Nat) (a : GWorker)
    (h : k < s.workers.length) (hf : a.rets = s.workers[k].rets) :
    retsG ⟨svc', s.workers.set k a⟩ = retsG s := by
  show ((s.workers.set k a).map (fun w => (w.rets : Multiset Nat))).sum =
    (s.workers.map (fun w => (w.rets : Multiset Nat))).sum
  exact sum_map_set_same (fun w => (w.rets : Multiset Nat)) s.workers k a h
    (by show ((a.rets : List Nat) : Multiset Nat) = _; rw [hf])

theorem retsG_set_cons (s : GRun) (svc' : goroutineIdService) (k : Nat) (a : GWorker)
    (h : k < s.workers.length) (v : Nat) (hf : a.rets = v :: s.workers[k].rets) :
    retsG ⟨svc', s.workers.set k a⟩ = v ::ₘ retsG s := by
  show ((s.workers.set k a).map (fun w => (w.rets : Multiset Nat))).sum =
    v ::ₘ (s.workers.map (fun w => (w.rets : Multiset Nat))).sum
  exact sum_coe_set (fun w => w.rets) s.workers k a h v hf

theorem gStep_inv (numWorkers numCalls : Nat) (hNM : numWorkers * numCalls < U64)
    (s : GRun) (hs : GInv numWorkers numCalls s) (a : GSched) :
    GInv numWorkers numCalls (gStep numCalls s a) := by
  obtain ⟨hpan, hclosed, hlen, hrets, hwall, o, ho, hdisj⟩ := hs
  unfold gStep
  split
  case isTrue => exact ⟨hpan, hclosed, hlen, hrets, hwall, o, ho, hdisj⟩
  case isFalse hnp =>
    split
    next i =>
      -- a = .worker i
      split
      case isFalse => exact ⟨hpan, hclosed, hlen, hrets, hwall, o, ho, hdisj⟩
      case isTrue h =>
        split
        next heqph =>
          -- worker i is idle: it may start a call by sending a request
          split
          case isFalse => exact ⟨hpan, hclosed, hlen, hrets, hwall, o, ho, hdisj⟩
          case isTrue hcM =>
            split
            case isTrue hcl =>
              rw [hclosed] at hcl
              exact Bool.noConfusion hcl
            case isFalse =>
              split
              next j heq2 =>
                split
                case isFalse => exact ⟨hpan, hclosed, hlen, hrets, hwall, o, ho, hdisj⟩
                case isTrue hj =>
                  -- request handshake with the (unique) listening owner
                  rw [ho, firstIdx_singleton] at heq2
                  rcases hLo : isListening o with _ | _
                  · rw [hLo] at heq2; simp at heq2
                  · rw [hLo] at heq2
                    simp at heq2
                    obtain rfl : j = 0 := by omega
                    have hol : o.ophase = .listening := (isListening_iff o).mp hLo
                    have hoj : s.svc.owners[0] = o := by simp [ho]
                    rcases hdisj with ⟨_, hoid, hidle⟩ | ⟨i₀, hi₀, _, _, _, hsub⟩
                    · -- the real transition
                      have htot := totalG_set_same s
                        ({ s.svc with owners := s.svc.owners.set 0 ({ s.svc.owners[0] with ophase := .incrementing }) })
                        i ({ s.workers[i] with phase := .waiting }) h rfl
                      have hret := retsG_set_same s
                        ({ s.svc with owners := s.svc.owners.set 0 ({ s.svc.owners[0] with ophase := .incrementing }) })
                        i ({ s.workers[i] with phase := .waiting }) h rfl
                      refine ⟨hpan, hclosed, ?_, ?_, ?_, ⟨.incrementing, o.id⟩, ?_, ?_⟩
                      · simp only [List.length_set]
                        exact hlen
                      · rw [hret, htot]; exact hrets
                      · intro w hw
                        rcases mem_of_mem_set _ _ _ _ hw with h' | h'
                        · obtain ⟨hc', hp', hb'⟩ := hwall w h'
                          exact ⟨hc', hp', fun v hv => by rw [htot]; exact hb' v hv⟩
                        · obtain ⟨hc', hp', hb'⟩ := hwall s.workers[i] (List.getElem_mem h)
                          subst h'
                          exact ⟨hc', hp', fun v hv => by rw [htot]; exact hb' v hv⟩
                      · rw [hoj, ho]
                        rfl
                      · refine Or.inr ⟨i, ?_, ?_, ?_, ?_, Or.inl ⟨rfl, ?_⟩⟩
                        · simp only [List.length_set]
                          exact h
                        · intro j' hj' hne
                          have hj0 : j' < s.workers.length := by
                            simp only [List.length_set] at hj'; exact hj'
                          simp only [List.getElem_set_ne (Ne.symm hne)]
                          exact hidle j' hj0
                        · simp [List.getElem_set_self]
                        · simp only [List.getElem_set_self]
                          exact hcM
                        · rw [htot]
                          exact hoid
                    · -- impossible: a worker is mid-call, so the owner is not listening
                      rcases hsub with ⟨hop, _⟩ | ⟨hop, _⟩ <;>
                        (rw [hol] at hop; exact absurd hop (by decide))
              next heq2 => exact ⟨hpan, hclosed, hlen, hrets, hwall, o, ho, hdisj⟩
        next heqph =>
          -- worker i is waiting for the response
          split
          next j heq2 =>
            split
            case isFalse => exact ⟨hpan, hclosed, hlen, hrets, hwall, o, ho, hdisj⟩
            case isTrue hj =>
              rw [ho, firstIdx_singleton] at heq2
              rcases hRo : isResponding o with _ | _
              · rw [hRo] at heq2; simp at heq2
              · rw [hRo] at heq2
                simp at heq2
                obtain rfl : j = 0 := by omega
                have hor : o.ophase = .responding := (isResponding_iff o).mp hRo
                have hoj : s.svc.owners[0] = o := by simp [ho]
                rcases hdisj with ⟨hop, _, _⟩ | ⟨i₀, hi₀, hoth, hwait, hciM, hsub⟩
                · rw [hor] at hop; exact absurd hop (by decide)
                · rcases hsub with ⟨hop, _⟩ | ⟨_, hoidr⟩
                  · rw [hor] at hop; exact absurd hop (by decide)
                  · by_cases hki : i = i₀
                    · subst hki
                      -- the real transition: deliver o.id = totalG s + 1 to worker i
                      have htot := totalG_set_succ s
                        ({ s.svc with owners := s.svc.owners.set 0 ({ s.svc.owners[0] with ophase := .listening }) })
                        i (⟨s.workers[i].calls + 1, .idle, s.svc.owners[0].id :: s.workers[i].rets⟩) h rfl
                      have hret := retsG_set_cons s
                        ({ s.svc with owners := s.svc.owners.set 0 ({ s.svc.owners[0] with ophase := .listening }) })
                        i (⟨s.workers[i].calls + 1, .idle, s.svc.owners[0].id :: s.workers[i].rets⟩) h
                        (s.svc.owners[0].id) rfl
                      refine ⟨hpan, hclosed, ?_, ?_, ?_, ⟨.listening, o.id⟩, ?_, ?_⟩
                      · simp only [List.length_set]
                        exact hlen
                      · rw [hret, htot, hoj, hoidr, hrets, Multiset.range_succ, Multiset.map_cons]
                      · intro w hw
                        rcases mem_of_mem_set _ _ _ _ hw with h' | h'
                        · obtain ⟨hc', hp', hb'⟩ := hwall w h'
                          exact ⟨hc', hp', fun v hv => by
                            rw [htot]; exact Nat.le_succ_of_le (hb' v hv)⟩
                        · obtain ⟨hc', hp', hb'⟩ := hwall s.workers[i] (List.getElem_mem h)
                          subst h'
                          refine ⟨hciM, ?_, ?_⟩
                          · rw [List.pairwise_cons]
                            refine ⟨fun b hb2 => ?_, hp'⟩
                            rw [hoj, hoidr]
                            exact Nat.lt_succ_of_le (hb' b hb2)
                          · intro v hv
                            rw [htot]
                            rcases List.mem_cons.mp hv with h'' | h''
                            · rw [h'', hoj, hoidr]
                            · exact Nat.le_succ_of_le (hb' v h'')
                      · rw [hoj, ho]
                        rfl
                      · refine Or.inl ⟨rfl, ?_, ?_⟩
                        · rw [htot]
                          exact hoidr
                        · intro j' hj'
                          have hj0 : j' < s.workers.length := by
                            simp only [List.length_set] at hj'; exact hj'
                          by_cases hji : j' = i
                          · subst hji
                            simp [List.getElem_set_self]
                          · simp only [List.getElem_set_ne (Ne.symm hji)]
                            exact hoth j' hj0 hji
                    · have := hoth i h hki
                      rw [heqph] at this
                      exact absurd this (by decide)
          next heq2 => exact ⟨hpan, hclosed, hlen, hrets, hwall, o, ho, hdisj⟩
    next j =>
      -- a = .owner j
      split
      case isFalse => exact ⟨hpan, hclosed, hlen, hrets, hwall, o, ho, hdisj⟩
      case isTrue hj =>
        split
        next heqo =>
          -- owner listening: with the channel open it just blocks in the receive
          split
          case isTrue hcl =>
            rw [hclosed] at hcl
            exact Bool.noConfusion hcl
          case isFalse => exact ⟨hpan, hclosed, hlen, hrets, hwall, o, ho, hdisj⟩
        next heqo =>
          -- owner increments its private counter and turns to respond
          have hj0 : j = 0 := by rw [ho] at hj; simp at hj; omega
          subst hj0
          have hoj : s.svc.owners[0] = o := by simp [ho]
          rw [hoj] at heqo
          rcases hdisj with ⟨hop, _, _⟩ | ⟨i₀, hi₀, hoth, hwait, hciM, hsub⟩
          · rw [heqo] at hop; exact absurd hop (by decide)
          · rcases hsub with ⟨_, hoidi⟩ | ⟨hop, _⟩
            · have hlt2 : totalG s < numWorkers * numCalls := by
                have hx := sum_map_lt (fun w => w.calls) numCalls s.workers i₀ hi₀
                  (fun w hw => (hwall w hw).1) hciM
                rw [hlen] at hx
                exact hx
              have hmod : (s.svc.owners[0].id + 1) % U64 = totalG s + 1 := by
                rw [hoj, hoidi]; exact Nat.mod_eq_of_lt (by omega)
              refine ⟨hpan, hclosed, hlen, hrets, hwall,
                ⟨.responding, (s.svc.owners[0].id + 1) % U64⟩, ?_, ?_⟩
              · rw [hoj, ho]
                rfl
              · refine Or.inr ⟨i₀, hi₀, hoth, hwait, hciM, Or.inr ⟨rfl, ?_⟩⟩
                show (s.svc.owners[0].id + 1) % U64 = totalG s + 1
                exact hmod
            · rw [heqo] at hop; exact absurd hop (by decide)
        next heqo => exact ⟨hpan, hclosed, hlen, hrets, hwall, o, ho, hdisj⟩
        next heqo => exact ⟨hpan, hclosed, hlen, hrets, hwall, o, ho, hdisj⟩

theorem gRun_inv (numWorkers numCalls : Nat) (hNM : numWorkers * numCalls < U64) :
    ∀ (sched : List GSched) (x : GRun), GInv numWorkers numCalls x →
      GInv numWorkers numCalls (sched.foldl (gStep numCalls) x)
  | [], _, hs => hs
  | a :: rest, x, hs =>
      gRun_inv numWorkers numCalls hNM rest _ (gStep_inv numWorkers numCalls hNM x hs a)

/-- Sequential (single-worker) execution of the unsynchronized strategy. -/
theorem nsSeq : ∀ (M j : Nat), j ≤ M →
    nsRun 1 M (nsSeqSched j) = ⟨⟨j % U64⟩, [⟨j, .idle, descList j⟩]⟩
  | M, 0, _ => by simp [nsRun, nsSeqSched, nsInit, List.replicate, descList]
  | M, j + 1, h => by
      rw [nsRun, nsSeqSched, List.foldl_append]
      have ih := nsSeq M j (Nat.le_of_succ_le h)
      rw [nsRun] at ih
      rw [ih]
      simp [nsStep, descList, Nat.mod_add_mod, Nat.lt_of_succ_le h]

/-- Sequential (single-worker) execution of the owner-thread strategy. -/
theorem gSeq : ∀ (M j : Nat), j ≤ M →
    gRun 1 M (gSeqSched j) =
      ⟨⟨[⟨.listening, j % U64⟩], false, false⟩, [⟨j, .idle, descList j⟩]⟩
  | M, 0, _ => by
      simp [gRun, gSeqSched, gInit, MakeGoroutineIdService, Start, List.replicate, descList]
  | M, j + 1, h => by
      rw [gRun, gSeqSched, List.foldl_append]
      have ih := gSeq M j (Nat.le_of_succ_le h)
      rw [gRun] at ih
      rw [ih]
      simp [gStep, firstIdx, isListening, isResponding, descList, Nat.mod_add_mod,
        Nat.lt_of_succ_le h]

theorem firstIdx_some (p : GOwner → Bool) :
    ∀ (os : List GOwner) (j : Nat), firstIdx p os = some j →
      ∃ h : j < os.length, p os[j] = true
  | [], j, h => by simp [firstIdx] at h
  | o :: os, j, h => by
      rw [firstIdx] at h
      by_cases hp : p o
      · rw [if_pos hp] at h
        obtain rfl : j = 0 := by simpa using h.symm
        exact ⟨by simp, by simpa using hp⟩
      · rw [if_neg hp] at h
        rcases hfi : firstIdx p os with _ | j'
        · rw [hfi] at h; simp at h
        · rw [hfi] at h
          simp at h
          obtain rfl : j = j' + 1 := h.symm
          obtain ⟨hlt, hpj⟩ := firstIdx_some p os j' hfi
          exact ⟨by simpa using Nat.succ_lt_succ hlt, by simpa using hpj⟩

/-- After the request channel is closed, an owner goroutine scheduled in its
receive loop exits the loop: `for range s.requests` terminates. -/
theorem gStep_owner_stop (numCalls : Nat) (s : GRun) (j : Nat)
    (hj : j < s.svc.owners.length) (hp : s.svc.panicked = false)
    (hc : s.svc.closed = true) (hl : s.svc.owners[j].ophase = .listening) :
    (gStep numCalls s (.owner j)).svc.owners[j]? = some ⟨.stopped, s.svc.owners[j].id⟩ := by
  simp [gStep, hp, hl, hc, hj, List.getElem?_set_self]

/-- A stopped owner goroutine is terminal: no primitive action of any worker
or any owner ever changes its entry again. -/
theorem gStep_stopped_stays (numCalls : Nat) (s : GRun) (a : GSched) (j : Nat)
    (hj : j < s.svc.owners.length) (hst : s.svc.owners[j].ophase = .stopped) :
    (gStep numCalls s a).svc.owners[j]? = some s.svc.owners[j] := by
  have hbase : s.svc.owners[j]? = some s.svc.owners[j] := List.getElem?_eq_getElem hj
  unfold gStep
  split
  case isTrue => exact hbase
  case isFalse =>
    split
    next i =>
      split
      case isFalse => exact hbase
      case isTrue h =>
        split
        next heqph =>
          split
          case isFalse => exact hbase
          case isTrue =>
            split
            case isTrue => exact hbase
            case isFalse =>
              split
              next j' heq2 =>
                split
                case isFalse => exact hbase
                case isTrue hj' =>
                  obtain ⟨hlt, hpj⟩ := firstIdx_some _ _ _ heq2
                  have hne : j' ≠ j := by
                    intro hcontra
                    subst hcontra
                    exact absurd (hst.symm.trans ((isListening_iff _).mp hpj)) (by decide)
                  simp only [List.getElem?_set_ne hne]
                  exact hbase
              next heq2 => exact hbase
        next heqph =>
          split
          next j' heq2 =>
            split
            case isFalse => exact hbase
            case isTrue hj' =>
              obtain ⟨hlt, hpj⟩ := firstIdx_some _ _ _ heq2
              have hne : j' ≠ j := by
                intro hcontra
                subst hcontra
                exact absurd (hst.symm.trans ((isResponding_iff _).mp hpj)) (by decide)
              simp only [List.getElem?_set_ne hne]
              exact hbase
          next heq2 => exact hbase
    next j' =>
      split
      case isFalse => exact hbase
      case isTrue hj' =>
        split
        next heqo =>
          split
          case isTrue =>
            have hne : j' ≠ j := by
              intro hcontra
              subst hcontra
              exact absurd (hst.symm.trans heqo) (by decide)
            simp only [List.getElem?_set_ne hne]
            exact hbase
          case isFalse => exact hbase
        next heqo =>
          have hne : j' ≠ j := by
            intro hcontra
            subst hcontra
            exact absurd (hst.symm.trans heqo) (by decide)
          simp only [List.getElem?_set_ne hne]
          exact hbase
        next heqo => exact hbase
        next heqo => exact hbase

theorem workerCheckErr_zero : ∀ rets : List Nat, workerCheckErr 0 rets = false
  | [] => rfl
  | id :: rest => by
      rw [workerCheckErr, if_neg (Nat.not_lt_zero id)]
      exact workerCheckErr_zero rest

/-! ## Completion lemmas: a fully completed run returns `{1, ..., N*M}` -/

theorem aRun_complete (numWorkers numCalls : Nat) (hNM : numWorkers * numCalls < U64)
    (sched : List Nat)
    (hcomp : ∀ w ∈ (aRun numWorkers numCalls sched).workers, w.calls = numCalls) :
    retsA (aRun numWorkers numCalls sched) =
      (Multiset.range (numWorkers * numCalls)).map (fun v => v + 1) := by
  have hinv : AInv numWorkers numCalls (aRun numWorkers numCalls sched) :=
    aRun_inv numWorkers numCalls hNM sched (aInit numWorkers) (aInit_inv numWorkers numCalls)
  obtain ⟨hlen, _, hrets, _⟩ := hinv
  have htot : totalA (aRun numWorkers numCalls sched) = numWorkers * numCalls := by
    have hx := sum_map_eq_of_all (fun w => w.calls) numCalls
      (aRun numWorkers numCalls sched).workers hcomp
    rw [hlen] at hx
    exact hx
  rw [← htot]
  exact hrets

theorem mRun_complete (numWorkers numCalls : Nat) (hNM : numWorkers * numCalls < U64)
    (sched : List Nat)
    (hcomp : ∀ w ∈ (mRun numWorkers numCalls sched).workers, w.calls = numCalls) :
    retsM (mRun numWorkers numCalls sched) =
      (Multiset.range (numWorkers * numCalls)).map (fun v => v + 1) := by
  have hinv : MInv numWorkers numCalls (mRun numWorkers numCalls sched) :=
    mRun_inv numWorkers numCalls hNM sched (mInit numWorkers) (mInit_inv numWorkers numCalls)
  obtain ⟨hlen, hrets, _, _⟩ := hinv
  have htot : totalM (mRun numWorkers numCalls sched) = numWorkers * numCalls := by
    have hx := sum_map_eq_of_all (fun w => w.calls) numCalls
      (mRun numWorkers numCalls sched).workers hcomp
    rw [hlen] at hx
    exact hx
  rw [← htot]
  exact hrets

theorem gRun_complete (numWorkers numCalls : Nat) (hNM : numWorkers * numCalls < U64)
    (sched : List GSched)
    (hcomp : ∀ w ∈ (gRun numWorkers numCalls sched).workers, w.calls = numCalls) :
    retsG (gRun numWorkers numCalls sched) =
      (Multiset.range (numWorkers * numCalls)).map (fun v => v + 1) := by
  have hinv : GInv numWorkers numCalls (gRun numWorkers numCalls sched) :=
    gRun_inv numWorkers numCalls hNM sched (gInit numWorkers) (gInit_inv numWorkers numCalls)
  obtain ⟨_, _, hlen, hrets, _, _⟩ := hinv
  have htot : totalG (gRun numWorkers numCalls sched) = numWorkers * numCalls := by
    have hx := sum_map_eq_of_all (fun w => w.calls) numCalls
      (gRun numWorkers numCalls sched).workers hcomp
    rw [hlen] at hx
    exact hx
  rw [← htot]
  exact hrets

/-! ## Claim theorems -/

/-- C1 (amended: requires `numWorkers * numCalls < 2 ^ 64`, since the shared
counter is a wrapping `uint64`): for the atomic, mutex and owner-thread
strategies, in every concurrent execution (every schedule of primitive
actions) in which each of the `numWorkers` workers completes its `numCalls`
calls to `getNext` on one shared fresh service instance, the multiset of the
`numWorkers * numCalls` returned values is exactly
`{1, 2, ..., numWorkers * numCalls}` — a permutation with no duplicate and no
skipped value. -/
theorem c1_correct_strategies_return_permutation (numWorkers numCalls : Nat)
    (hNM : numWorkers * numCalls < U64) (sa sm : List Nat) (sg : List GSched)
    (ha : ∀ w ∈ (aRun numWorkers numCalls sa).workers, w.calls = numCalls)
    (hm : ∀ w ∈ (mRun numWorkers numCalls sm).workers, w.calls = numCalls)
    (hg : ∀ w ∈ (gRun numWorkers numCalls sg).workers, w.calls = numCalls) :
    retsA (aRun numWorkers numCalls sa) =
      (Multiset.range (numWorkers * numCalls)).map (fun v => v + 1) ∧
    retsM (mRun numWorkers numCalls sm) =
      (Multiset.range (numWorkers * numCalls)).map (fun v => v + 1) ∧
    retsG (gRun numWorkers numCalls sg) =
      (Multiset.range (numWorkers * numCalls)).map (fun v => v + 1) :=
  ⟨aRun_complete numWorkers numCalls hNM sa ha,
   mRun_complete numWorkers numCalls hNM sm hm,
   gRun_complete numWorkers numCalls hNM sg hg⟩

/-- Witness for C1: two workers, one call each, one completed interleaving per
strategy; the returned multiset is `{1, 2}` for all three strategies. -/
theorem c1_witness :
    ((∀ w ∈ (aRun 2 1 [0, 1]).workers, w.calls = 1) ∧
     (∀ w ∈ (mRun 2 1 [0, 0, 0, 1, 1, 1]).workers, w.calls = 1) ∧
     (∀ w ∈ (gRun 2 1 [.worker 0, .owner 0, .worker 0, .worker 1, .owner 0,
        .worker 1]).workers, w.calls = 1)) ∧
    (retsA (aRun 2 1 [0, 1]) = (Multiset.range (2 * 1)).map (fun v => v + 1) ∧
     retsM (mRun 2 1 [0, 0, 0, 1, 1, 1]) = (Multiset.range (2 * 1)).map (fun v => v + 1) ∧
     retsG (gRun 2 1 [.worker 0, .owner 0, .worker 0, .worker 1, .owner 0, .worker 1]) =
       (Multiset.range (2 * 1)).map (fun v => v + 1)) :=
  ⟨⟨by decide, by decide, by decide⟩,
   c1_correct_strategies_return_permutation 2 1 (by decide) [0, 1] [0, 0, 0, 1, 1, 1]
     [.worker 0, .owner 0, .worker 0, .worker 1, .owner 0, .worker 1]
     (by decide) (by decide) (by decide)⟩

/-- Counterexample to C1 as literally stated (for every worker count and
calls-per-worker count): at `numWorkers = 1`, `numCalls = 2 ^ 64`, the single
worker completes all its calls in the sequential schedule, yet the multiset of
returned values is not `{1, ..., 2 ^ 64}` — the `uint64` counter wraps, so the
last call returns `0`. -/
theorem c1_overflow_counterexample :
    (∀ w ∈ (aRun 1 U64 (List.replicate U64 0)).workers, w.calls = U64) ∧
    retsA (aRun 1 U64 (List.replicate U64 0)) ≠
      (Multiset.range (1 * U64)).map (fun v => v + 1) := by
  have hseq := aSeq U64 U64 (le_refl U64)
  constructor
  · intro w hw
    rw [hseq] at hw
    simp at hw
    simp [hw]
  · rw [hseq]
    intro hcontra
    have h0 : (0 : Nat) ∈ (Multiset.range (1 * U64)).map (fun v => v + 1) := by
      rw [← hcontra]
      show (0 : Nat) ∈ retsA ⟨⟨U64 % U64⟩, [⟨U64, descList U64⟩]⟩
      simp [retsA]
      exact zero_mem_descList_u64
    rw [Multiset.mem_map] at h0
    obtain ⟨v, _, hv⟩ := h0
    omega

/-- C3 (amended: requires `k < 2 ^ 64`, since the counter is a wrapping
`uint64`): every strategy's freshly constructed service has internal value
`0`, and for a single sequential caller making `k` calls, the i-th call
returns exactly `i` — the call-order return sequence of each strategy is
`[1, 2, ..., k]`; in particular with one worker and one call the single call
returns `1`. -/
theorem c3_sequential_ith_call_returns_i (k : Nat) (hk : k < U64) :
    (nsInit 1).svc.id = 0 ∧ (aInit 1).svc.id = 0 ∧ (mInit 1).svc.id = 0 ∧
    (∀ o ∈ MakeGoroutineIdService.owners, o.id = 0) ∧
    (nsRun 1 k (nsSeqSched k)).workers.map (fun w => w.rets.reverse) =
      [(List.range k).map (fun j => j + 1)] ∧
    (aRun 1 k (List.replicate k 0)).workers.map (fun w => w.rets.reverse) =
      [(List.range k).map (fun j => j + 1)] ∧
    (mRun 1 k (mSeqSched k)).workers.map (fun w => w.rets.reverse) =
      [(List.range k).map (fun j => j + 1)] ∧
    (gRun 1 k (gSeqSched k)).workers.map (fun w => w.rets.reverse) =
      [(List.range k).map (fun j => j + 1)] := by
  have hdesc := descList_eq_of_lt k hk
  refine ⟨rfl, rfl, rfl, ?_, ?_, ?_, ?_, ?_⟩
  · intro o hoo
    simp [MakeGoroutineIdService, Start] at hoo
    rw [hoo]
  · rw [nsSeq k k (le_refl k)]
    simp [hdesc]
  · rw [aSeq k k (le_refl k)]
    simp [hdesc]
  · rw [mSeq k k (le_refl k)]
    simp [hdesc]
  · rw [gSeq k k (le_refl k)]
    simp [hdesc]

/-- Witness for C3 at `k = 3`: all four strategies return `[1, 2, 3]`. -/
theorem c3_witness :
    (3 < U64) ∧
    ((nsInit 1).svc.id = 0 ∧ (aInit 1).svc.id = 0 ∧ (mInit 1).svc.id = 0 ∧
     (∀ o ∈ MakeGoroutineIdService.owners, o.id = 0) ∧
     (nsRun 1 3 (nsSeqSched 3)).workers.map (fun w => w.rets.reverse) =
       [(List.range 3).map (fun j => j + 1)] ∧
     (aRun 1 3 (List.replicate 3 0)).workers.map (fun w => w.rets.reverse) =
       [(List.range 3).map (fun j => j + 1)] ∧
     (mRun 1 3 (mSeqSched 3)).workers.map (fun w => w.rets.reverse) =
       [(List.range 3).map (fun j => j + 1)] ∧
     (gRun 1 3 (gSeqSched 3)).workers.map (fun w => w.rets.reverse) =
       [(List.range 3).map (fun j => j + 1)]) :=
  ⟨by decide, c3_sequential_ith_call_returns_i 3 (by decide)⟩

/-- Counterexample to C3 as literally stated (for every call index `i`): for
the owner-thread strategy, after `2 ^ 64` sequential calls the latest call
(the `2 ^ 64`-th) returned `0`, not `2 ^ 64` — the owner's private `uint64`
counter wraps. -/
theorem c3_overflow_counterexample :
    (gRun 1 U64 (gSeqSched U64)).workers.map (fun w => w.rets.head?) = [some 0] ∧
    (0 : Nat) ≠ U64 := by
  constructor
  · rw [gSeq U64 U64 (le_refl U64)]
    simp [descList_u64]
  · decide

/-- C4: the validator is claimed to fail a run exactly when some worker
observes a value lower than a previously observed one (MonotonicityViolation)
or the maximum returned value differs from `numWorkers * numCalls`
(CountMismatch).  The code cannot detect the former: the Go loop never
updates `lastId` after initializing it to `0`, so the check `id < lastId` is
dead (`workerCheckErr 0` is constantly `false`).  Concretely, a worker that
observes `2` and then `1` (a monotonicity violation with a correct maximum)
passes the validator, contradicting the claim; the count check itself works,
as the duplicate run `[[1], [1]]` with expected maximum `2` shows. -/
theorem c4_validator_monotonicity_check_dead :
    (∀ rets : List Nat, workerCheckErr 0 rets = false) ∧
    RunService [[2, 1]] 1 2 = false ∧
    RunService [[1], [1]] 2 1 = true := by
  refine ⟨workerCheckErr_zero, ?_, ?_⟩ <;> decide

/-- C5: after `Stop()` has closed the request channel of a started service, a
subsequent `getNext()` call fails immediately and distinguishably — its very
first primitive action is a send on a closed channel, which is a Go run-time
panic; the call does not block and nothing else in the state changes. -/
theorem c5_getNext_after_stop_fails_fast (numCalls : Nat) (s : GRun) (i : Nat)
    (h : i < s.workers.length) (hp : s.svc.panicked = false)
    (hc : s.svc.closed = true) (hph : s.workers[i].phase = .idle)
    (hcM : s.workers[i].calls < numCalls) :
    gStep numCalls s (.worker i) = { s with svc := { s.svc with panicked := true } } := by
  simp [gStep, hp, hph, hcM, hc, h]

/-- Witness for C5: a stopped fresh service with one idle worker; the worker's
`getNext` panics in one step. -/
theorem c5_witness :
    (Stop MakeGoroutineIdService).closed = true ∧
    (Stop MakeGoroutineIdService).panicked = false ∧
    gStep 1 ⟨Stop MakeGoroutineIdService, [⟨0, .idle, []⟩]⟩ (.worker 0) =
      ⟨⟨[⟨.listening, 0⟩], true, true⟩, [⟨0, .idle, []⟩]⟩ := by
  refine ⟨by decide, by decide, ?_⟩
  have hx := c5_getNext_after_stop_fails_fast 1
    ⟨Stop MakeGoroutineIdService, [⟨0, .idle, []⟩]⟩ 0
    (by decide) (by decide) (by decide) (by decide) (by decide)
  exact hx.trans (by decide)

/-- C6: the claim says double-`Start` is impossible through the public
interface.  It is not: `Start` has no guard, `MakeGoroutineIdService` already
calls `Start` once, and the test's `setup` calls `Start` again, so two owner
goroutines serve the same channel pair.  Each owner has its own private
counter, so an interleaving exists in which two workers both receive `1`:
duplicate ids, maximum `1` below the `2` issued calls. -/
theorem c6_double_start_unguarded :
    (Start MakeGoroutineIdService).owners.length = 2 ∧
    (List.foldl (gStep 1)
        ⟨Start MakeGoroutineIdService, List.replicate 2 ⟨0, .idle, []⟩⟩
        [.worker 0, .worker 1, .owner 0, .owner 1, .worker 0, .worker 1]).workers.map
      (fun w => w.rets) = [[1], [1]] := by
  constructor <;> decide

/-- C7: the owner goroutine starts in its receive-loop (listening) state upon
construction; when the request channel has been closed, a listening owner's
next action is to exit the loop into the terminal `stopped` state; and a
stopped owner's entry is never changed by any further action of any worker or
owner. -/
theorem c7_owner_lifecycle :
    MakeGoroutineIdService.owners = [⟨OPhase.listening, 0⟩] ∧
    (∀ (numCalls : Nat) (s : GRun) (j : Nat) (hj : j < s.svc.owners.length),
      s.svc.panicked = false → s.svc.closed = true →
      s.svc.owners[j].ophase = .listening →
      (gStep numCalls s (.owner j)).svc.owners[j]? = some ⟨.stopped, s.svc.owners[j].id⟩) ∧
    (∀ (numCalls : Nat) (s : GRun) (a : GSched) (j : Nat) (hj : j < s.svc.owners.length),
      s.svc.owners[j].ophase = .stopped →
      (gStep numCalls s a).svc.owners[j]? = some s.svc.owners[j]) :=
  ⟨rfl,
   fun numCalls s j hj hp hc hl => gStep_owner_stop numCalls s j hj hp hc hl,
   fun numCalls s a j hj hst => gStep_stopped_stays numCalls s a j hj hst⟩

/-- Witness for C7: a freshly stopped service's owner transitions to
`stopped`, and a stopped owner survives a worker action unchanged. -/
theorem c7_witness :
    (gStep 1 ⟨Stop MakeGoroutineIdService, []⟩ (.owner 0)).svc.owners[0]? =
      some ⟨OPhase.stopped, 0⟩ ∧
    (gStep 1 ⟨⟨[⟨OPhase.stopped, 5⟩], true, false⟩, [⟨0, .idle, []⟩]⟩
        (.worker 0)).svc.owners[0]? = some ⟨OPhase.stopped, 5⟩ :=
  ⟨c7_owner_lifecycle.2.1 1 ⟨Stop MakeGoroutineIdService, []⟩ 0 (by decide)
     (by decide) (by decide) (by decide),
   c7_owner_lifecycle.2.2 1 ⟨⟨[⟨OPhase.stopped, 5⟩], true, false⟩, [⟨0, .idle, []⟩]⟩
     (.worker 0) 0 (by decide) (by decide)⟩

/-- C8 (amended: requires `numWorkers * numCalls < 2 ^ 64`, since the counter
is a wrapping `uint64`): for the atomic, mutex and owner-thread strategies, in
every execution each worker's own sequence of returned values is strictly
increasing — each returned value is strictly greater than every value that
same worker previously observed, whatever the interleaving with the other
workers.  `w.rets` is newest-first, so this is `Pairwise (fun a b => b < a)`. -/
theorem c8_per_worker_strictly_increasing (numWorkers numCalls : Nat)
    (hNM : numWorkers * numCalls < U64) (sa sm : List Nat) (sg : List GSched) :
    (∀ w ∈ (aRun numWorkers numCalls sa).workers, w.rets.Pairwise (fun a b => b < a)) ∧
    (∀ w ∈ (mRun numWorkers numCalls sm).workers, w.rets.Pairwise (fun a b => b < a)) ∧
    (∀ w ∈ (gRun numWorkers numCalls sg).workers, w.rets.Pairwise (fun a b => b < a)) := by
  have ha : AInv numWorkers numCalls (aRun numWorkers numCalls sa) :=
    aRun_inv numWorkers numCalls hNM sa (aInit numWorkers) (aInit_inv numWorkers numCalls)
  have hm : MInv numWorkers numCalls (mRun numWorkers numCalls sm) :=
    mRun_inv numWorkers numCalls hNM sm (mInit numWorkers) (mInit_inv numWorkers numCalls)
  have hg : GInv numWorkers numCalls (gRun numWorkers numCalls sg) :=
    gRun_inv numWorkers numCalls hNM sg (gInit numWorkers) (gInit_inv numWorkers numCalls)
  exact ⟨fun w hw => (ha.2.2.2 w hw).2.1, fun w hw => (hm.2.2.1 w hw).2.1,
    fun w hw => (hg.2.2.2.2.1 w hw).2.1⟩

/-- Witness for C8: two workers, one call each, a concrete interleaving per
strategy. -/
theorem c8_witness :
    (2 * 1 < U64) ∧
    ((∀ w ∈ (aRun 2 1 [0, 1]).workers, w.rets.Pairwise (fun a b => b < a)) ∧
     (∀ w ∈ (mRun 2 1 [0, 0, 0, 1, 1, 1]).workers, w.rets.Pairwise (fun a b => b < a)) ∧
     (∀ w ∈ (gRun 2 1 [.worker 0, .owner 0, .worker 0, .worker 1, .owner 0,
        .worker 1]).workers, w.rets.Pairwise (fun a b => b < a))) :=
  ⟨by decide, c8_per_worker_strictly_increasing 2 1 (by decide) [0, 1] [0, 0, 0, 1, 1, 1]
    [.worker 0, .owner 0, .worker 0, .worker 1, .owner 0, .worker 1]⟩

/-- Counterexample to C8 as literally stated (for every worker count and
calls-per-worker count): for the mutex strategy with one worker and `2 ^ 64`
calls, the `uint64` counter wraps: the last call returns `0` after the
previous call returned `2 ^ 64 - 1`, so the worker's sequence is not strictly
increasing. -/
theorem c8_overflow_counterexample :
    ¬ ∀ w ∈ (mRun 1 U64 (mSeqSched U64)).workers, w.rets.Pairwise (fun a b => b < a) := by
  intro hall
  rw [mSeq U64 U64 (le_refl U64)] at hall
  have hp := hall ⟨U64, .outside, descList U64⟩ (by simp)
  rw [descList_u64, List.pairwise_cons] at hp
  have h2 := hp.1 (U64 - 1) (List.mem_cons_self _ _)
  omega

/-- C9 (amended): calling `Stop` once on a started service completes without
error and signals shutdown (the request channel is closed and a listening
owner then terminates), but `Stop` is not idempotent: a second `Stop` is
`close` of an already-closed channel, which is a Go run-time panic. -/
theorem c9_stop_once_then_second_stop_panics :
    (Stop MakeGoroutineIdService).closed = true ∧
    (Stop MakeGoroutineIdService).panicked = false ∧
    (gStep 1 ⟨Stop MakeGoroutineIdService, []⟩ (.owner 0)).svc.owners =
      [⟨OPhase.stopped, 0⟩] ∧
    (Stop (Stop MakeGoroutineIdService)).panicked = true := by
  refine ⟨?_, ?_, ?_, ?_⟩ <;> decide

/-- Counterexample to C9 as literally stated: a repeated `Stop` is not a
no-op and does fail — on the concrete service `MakeGoroutineIdService`, the
second `Stop` sets the panic flag and changes the state. -/
theorem c9_stop_not_idempotent :
    (Stop (Stop MakeGoroutineIdService)).panicked = true ∧
    Stop (Stop MakeGoroutineIdService) ≠ Stop MakeGoroutineIdService := by
  constructor <;> decide

/-- C10 (amended: requires `k < 2 ^ 64`, since the counter is a wrapping
`uint64`): used by a single sequential caller, the unsynchronized strategy is
functionally correct — `k` calls on a fresh instance return exactly
`1, 2, ..., k`, and its return list is identical to the atomic strategy's on
the same sequential workload. -/
theorem c10_nosync_sequential_correct (k : Nat) (hk : k < U64) :
    (nsRun 1 k (nsSeqSched k)).workers.map (fun w => w.rets.reverse) =
      [(List.range k).map (fun j => j + 1)] ∧
    (nsRun 1 k (nsSeqSched k)).workers.map (fun w => w.rets) =
      (aRun 1 k (List.replicate k 0)).workers.map (fun w => w.rets) := by
  constructor
  · rw [nsSeq k k (le_refl k)]
    simp [descList_eq_of_lt k hk]
  · rw [nsSeq k k (le_refl k), aSeq k k (le_refl k)]
    rfl

/-- Witness for C10 at `k = 2`. -/
theorem c10_witness :
    (2 < U64) ∧
    ((nsRun 1 2 (nsSeqSched 2)).workers.map (fun w => w.rets.reverse) =
       [(List.range 2).map (fun j => j + 1)] ∧
     (nsRun 1 2 (nsSeqSched 2)).workers.map (fun w => w.rets) =
       (aRun 1 2 (List.replicate 2 0)).workers.map (fun w => w.rets)) :=
  ⟨by decide, c10_nosync_sequential_correct 2 (by decide)⟩

/-- Counterexample to C10 as literally stated (for every sequential call
count): at `k = 2 ^ 64` the `uint64` counter wraps and the call-order return
list is not `[1, ..., 2 ^ 64]` (its last element is `0`). -/
theorem c10_overflow_counterexample :
    (nsRun 1 U64 (nsSeqSched U64)).workers.map (fun w => w.rets.reverse) ≠
      [(List.range U64).map (fun j => j + 1)] := by
  rw [nsSeq U64 U64 (le_refl U64)]
  intro hcontra
  have h1 : (descList U64).reverse = (List.range U64).map (fun j => j + 1) := by
    simpa using hcontra
  have h0 : (0 : Nat) ∈ (descList U64).reverse :=
    List.mem_reverse.mpr zero_mem_descList_u64
  rw [h1, List.mem_map] at h0
  obtain ⟨v, _, hv⟩ := h0
  omega

